import Mathlib

/-!
Formal model of the document editing core in `helix-view/src/document.rs`:
text state, transactions, change-set accumulation, undo history, incremental
parse-tree bookkeeping, and change notifications to an external analysis
service.  The types the document aggregates but that live outside the
repository snapshot (`State`, `ChangeSet`, `Transaction`, `History` from
`helix-core`) are modelled from the spec; each such definition is marked
`Modelled from the spec:` in its doc comment.  Texts are lists of characters,
positions are character offsets, the version counter is a mathematical
integer.
-/

namespace Helix

/-- Modelled from the spec: one selection range over the text buffer
("selection: set of ranges"), given by an anchor and a head offset. -/
structure Range where
  anchor : Nat
  head : Nat
deriving DecidableEq

/-- Modelled from the spec: a selection is a set of ranges. -/
structure Selection where
  ranges : List Range
deriving DecidableEq

/-- A single-range selection, as built by `Selection::single`. -/
def Selection.single (anchor head : Nat) : Selection :=
  { ranges := [{ anchor := anchor, head := head }] }

/-- Modelled from the spec: "TextState: buffer plus selection", the atomic
mutation target (`State` in the source, a rope plus a selection). -/
structure State where
  doc : List Char
  selection : Selection
deriving DecidableEq

/-- Modelled from the spec: one primitive operation of a change-set
("insertions/deletions/replacements expressed as position ranges"):
retain skips unchanged text, delete removes, insert adds. -/
inductive Change where
  | retain (n : Nat)
  | delete (n : Nat)
  | insert (s : List Char)
deriving DecidableEq

/-- Modelled from the spec: applying the operations of a change-set to a
text, front to back; any remaining suffix after the last operation is kept.
`none` models an out-of-range edit, the failure case of edit application
("e.g., out-of-range operation"). -/
def applyOps : List Change → List Char → Option (List Char)
  | [], t => some t
  | Change.retain n :: xs, t =>
      if n ≤ t.length then (applyOps xs (t.drop n)).map (fun u => t.take n ++ u)
      else none
  | Change.delete n :: xs, t =>
      if n ≤ t.length then applyOps xs (t.drop n)
      else none
  | Change.insert s :: xs, t => (applyOps xs t).map (fun u => s ++ u)

/-- Modelled from the spec: "ChangeSet: a composable, invertible diff".
`len` is the length of the document the change-set applies to; the source
re-anchors accumulators with `ChangeSet::new(text)` "to fix len". -/
structure ChangeSet where
  changes : List Change
  len : Nat
deriving DecidableEq

/-- `ChangeSet::new`: the empty change-set anchored at a document. -/
def ChangeSet.new (doc : List Char) : ChangeSet :=
  { changes := [], len := doc.length }

/-- `ChangeSet::is_empty`: no recorded operations. -/
def ChangeSet.isEmpty (c : ChangeSet) : Bool :=
  c.changes.isEmpty

/-- Applying a change-set: refuse unless the document has the anchored
length, then apply the operations. -/
def ChangeSet.apply (c : ChangeSet) (doc : List Char) : Option (List Char) :=
  if doc.length = c.len then applyOps c.changes doc else none

/-- Net length contribution of one operation. -/
def Change.delta : Change → Int
  | Change.retain _ => 0
  | Change.delete n => -(n : Int)
  | Change.insert s => (s.length : Int)

/-- Net length contribution of an operation list. -/
def deltaOps (xs : List Change) : Int :=
  (xs.map Change.delta).sum

/-- Length of the document a change-set produces. -/
def ChangeSet.lenAfter (c : ChangeSet) : Nat :=
  ((c.len : Int) + deltaOps c.changes).toNat

/-- Modelled from the spec: composition of two operation lists, the second
acting on the output of the first ("Composing two change-sets produced by
sequential transactions ... must yield a change-set equivalent to applying
both transactions in order").  Deletions of the first set are kept first,
insertions of the second set are kept as they come; matching
retain/delete/insert spans are split against each other. -/
def composeOps : List Change → List Change → List Change
  | [], ys => ys
  | xs, [] => xs
  | Change.delete n :: xs, ys => Change.delete n :: composeOps xs ys
  | xs, Change.insert s :: ys => Change.insert s :: composeOps xs ys
  | Change.retain m :: xs, Change.retain n :: ys =>
      if m < n then Change.retain m :: composeOps xs (Change.retain (n - m) :: ys)
      else if n < m then Change.retain n :: composeOps (Change.retain (m - n) :: xs) ys
      else Change.retain n :: composeOps xs ys
  | Change.retain m :: xs, Change.delete n :: ys =>
      if m < n then Change.delete m :: composeOps xs (Change.delete (n - m) :: ys)
      else if n < m then Change.delete n :: composeOps (Change.retain (m - n) :: xs) ys
      else Change.delete n :: composeOps xs ys
  | Change.insert s :: xs, Change.retain n :: ys =>
      if s.length < n then
        Change.insert s :: composeOps xs (Change.retain (n - s.length) :: ys)
      else if n < s.length then
        Change.insert (s.take n) :: composeOps (Change.insert (s.drop n) :: xs) ys
      else Change.insert s :: composeOps xs ys
  | Change.insert s :: xs, Change.delete n :: ys =>
      if s.length < n then composeOps xs (Change.delete (n - s.length) :: ys)
      else if n < s.length then composeOps (Change.insert (s.drop n) :: xs) ys
      else composeOps xs ys
termination_by xs ys => xs.length + ys.length
decreasing_by all_goals (simp [List.length_cons]; try omega)

/-- `ChangeSet::compose`: the composed set stays anchored at the first
set's input length. -/
def ChangeSet.compose (a b : ChangeSet) : ChangeSet :=
  { changes := composeOps a.changes b.changes, len := a.len }

/-- Modelled from the spec: inversion of an operation list against the
original text it was applied to ("Must support inversion (for undo)"):
retains stay, deletions become insertions of the deleted text, insertions
become deletions of the inserted length. -/
def invertOps : List Change → List Char → List Change
  | [], _ => []
  | Change.retain n :: xs, t => Change.retain n :: invertOps xs (t.drop n)
  | Change.delete n :: xs, t => Change.insert (t.take n) :: invertOps xs (t.drop n)
  | Change.insert s :: xs, t => Change.delete s.length :: invertOps xs t

/-- `ChangeSet::invert`: anchored at the produced document's length. -/
def ChangeSet.invert (c : ChangeSet) (original : List Char) : ChangeSet :=
  { changes := invertOps c.changes original, len := c.lenAfter }

/-- Modelled from the spec: position mapping through a change-set
("position-mapping ... interface only, not algorithm, in scope here");
used only when a transaction carries no post-edit selection. -/
def mapPosOps : List Change → Nat → Nat
  | [], pos => pos
  | Change.retain n :: xs, pos => if pos < n then pos else n + mapPosOps xs (pos - n)
  | Change.delete n :: xs, pos => if pos < n then 0 else mapPosOps xs (pos - n)
  | Change.insert s :: xs, pos => s.length + mapPosOps xs pos

/-- Mapping a whole selection through a change-set. -/
def Selection.mapThrough (c : ChangeSet) (s : Selection) : Selection :=
  { ranges := s.ranges.map (fun r =>
      { anchor := mapPosOps c.changes r.anchor, head := mapPosOps c.changes r.head }) }

/-- Modelled from the spec: "Transaction: an ordered edit operation ... plus
an optional post-edit selection. Produces a ChangeSet describing the diff." -/
structure Transaction where
  changes : ChangeSet
  selection : Option Selection
deriving DecidableEq

/-- Modelled from the spec (section 4.1): apply the edit to the text state;
the selection is replaced by the transaction's post-edit selection if
present, otherwise the current selection is mapped through the change-set.
Returns `false` exactly when the underlying edit application fails, in which
case the state is left unchanged. -/
def Transaction.apply (t : Transaction) (s : State) : Bool × State :=
  if t.changes.isEmpty then
    (true, { s with selection := t.selection.getD (Selection.mapThrough t.changes s.selection) })
  else
    match t.changes.apply s.doc with
    | none => (false, s)
    | some doc =>
        (true, { doc := doc
                 selection := t.selection.getD (Selection.mapThrough t.changes s.selection) })

/-- Modelled from the spec: invert a transaction against the state it was
applied to; the inverse carries the original selection, so undoing restores
it. -/
def Transaction.invert (t : Transaction) (original : State) : Transaction :=
  { changes := t.changes.invert original.doc, selection := some original.selection }

/-- `Transaction::from(changes)`: a transaction with no post-edit selection. -/
def Transaction.fromChangeSet (c : ChangeSet) : Transaction :=
  { changes := c, selection := none }

/-- `Transaction::with_selection`. -/
def Transaction.with_selection (t : Transaction) (s : Selection) : Transaction :=
  { t with selection := some s }

/-- Modelled from the spec: the incremental-reparse algorithm itself is out
of scope ("OUT OF SCOPE ... the incremental-reparse algorithm itself"); only
the interface `update(pre_text, post_text, change_set) -> Result` is needed.
The tree is modelled by the text it reflects; `failNext` is an oracle making
the next incremental update fail, standing for the environment-determined
reparse failures section 4.4 allows. -/
structure ParseTree where
  text : List Char
  failNext : Bool
deriving DecidableEq

/-- Incremental update of the parse tree; fails exactly when the failure
oracle says so, otherwise tracks the new text. -/
def ParseTree.update (tr : ParseTree) (_oldText newText : List Char)
    (_changes : ChangeSet) : Except Unit ParseTree :=
  if tr.failNext then Except.error () else Except.ok { text := newText, failNext := false }

/-- Modelled from the spec (section 4.3): a committed revision stores the
forward transaction and the precomputed revert transaction. -/
structure Revision where
  revert : Transaction
  transaction : Transaction
deriving DecidableEq

/-- Modelled from the spec (section 4.3): a linear sequence of revisions
plus a cursor; undo steps the cursor back handing out the revert, redo steps
forward handing out the forward transaction. -/
structure History where
  revisions : List Revision
  cursor : Nat
deriving DecidableEq

/-- `History::default()`: empty history. -/
def History.default : History :=
  { revisions := [], cursor := 0 }

/-- `History::commit_revision`: drop the forward (redo) part, push the new
revision with its revert computed against the pre-change state, advance the
cursor. -/
def History.commit_revision (h : History) (transaction : Transaction)
    (original : State) : History :=
  { revisions := h.revisions.take h.cursor ++
      [{ revert := transaction.invert original, transaction := transaction }]
    cursor := h.cursor + 1 }

/-- `History::undo`: step the cursor back and hand out the revert transaction
of the revision stepped over, if any. -/
def History.undo (h : History) : Option (Transaction × History) :=
  if h.cursor = 0 then none
  else
    match h.revisions.get? (h.cursor - 1) with
    | none => none
    | some rev => some (rev.revert, { h with cursor := h.cursor - 1 })

/-- `History::redo`: hand out the forward transaction of the next revision
and step the cursor forward, if any. -/
def History.redo (h : History) : Option (Transaction × History) :=
  match h.revisions.get? h.cursor with
  | none => none
  | some rev => some (rev.transaction, { h with cursor := h.cursor + 1 })

/-- `Mode`: exclusive editing-mode flag. -/
inductive Mode where
  | Normal
  | Insert
  | Goto
deriving DecidableEq

/-- Two's-complement wrap of a 32-bit signed integer: the effect of the
source's release-build `i32` `+=` when it overflows (debug builds panic
instead).  The source stores the document version as `version: i32` (with a
`// should be usize?` comment), so every increment below is wrapped. -/
def wrap32 (x : Int) : Int :=
  (x + 2147483648) % 4294967296 - 2147483648

/-- Modelled from the spec: diagnostics are opaque payload carried by the
document; their content is out of scope. -/
structure Diagnostic where
  line : Nat
  message : List Char
deriving DecidableEq

/-- One `textDocument/didChange` notification as emitted by `_apply`: the
path-derived locator and version it carries, together with the arguments
passed to the change-event translation (old text, new text, change-set). -/
structure DidChangeNotification where
  uri : List Char
  version : Int
  oldDoc : List Char
  newDoc : List Char
  changes : ChangeSet
deriving DecidableEq

/-- The `Document` aggregate of `helix-view/src/document.rs`.  The source
field `syntax` is a Lean keyword and is named `tree` here. -/
structure Document where
  state : State
  path : Option (List Char)
  mode : Mode
  restore_cursor : Bool
  tree : Option ParseTree
  language : Option (List Char)
  changes : ChangeSet
  old_state : Option State
  history : History
  version : Int
  diagnostics : List Diagnostic
  language_server : Bool
deriving DecidableEq

/-- `Document::new`. -/
def Document.new (state : State) : Document :=
  { state := state
    path := none
    mode := Mode.Normal
    restore_cursor := false
    tree := none
    language := none
    changes := ChangeSet.new state.doc
    old_state := none
    history := History.default
    version := 0
    diagnostics := []
    language_server := false }

/-- `Document::save`: the snapshot of text and path captured synchronously
for the asynchronous write.  `none` models the panicking
`expect("Can't save with no path set!")` when no path is set; the chunked
file write itself is out-of-scope I/O. -/
def Document.save (d : Document) : Option (List Char × List Char) :=
  match d.path with
  | none => none
  | some path => some (d.state.doc, path)

/-- `Document::set_selection`. -/
def Document.set_selection (d : Document) (selection : Selection) : Document :=
  { d with state := { d.state with selection := selection } }

/-- `Document::versioned_identifier`: the locator is derived from the path;
`none` models the `unwrap` panic when no path is set. -/
def Document.versioned_identifier (d : Document) : Option (List Char × Int) :=
  match d.path with
  | none => none
  | some p => some (p, d.version)

/-- Result of one `_apply`/`apply`/`undo`/`redo` call: the returned boolean,
the document after the call, and the didChange notifications emitted during
it.  Each call site wraps the result in `Option`, with `none` modelling a
process abort (a panicking `unwrap`/`expect`). -/
structure ApplyResult where
  success : Bool
  doc : Document
  notes : List DidChangeNotification
deriving DecidableEq

/-- `Document::_apply` (named `applyImpl` here; the source name starts with
an underscore).  Applies the transaction to the text state; then — whenever
the transaction's change-set is non-empty, regardless of success — updates
the parse tree (the source calls `.unwrap()` on the update result, so a
failed update aborts the process, modelled as `none`) and emits the
didChange notification when a language-server binding is present (the source
`unwrap`s the path-derived identifier, so a missing path aborts; delivery
itself is modelled as succeeding, its failure being another abort the spec
flags as a defect). -/
def Document.applyImpl (d : Document) (transaction : Transaction) : Option ApplyResult :=
  let old_doc := d.state.doc
  let res := transaction.apply d.state
  let d1 : Document := { d with state := res.2 }
  if transaction.changes.isEmpty then
    some { success := res.1, doc := d1, notes := [] }
  else
    let treeResult : Option (Option ParseTree) :=
      match d1.tree with
      | none => some none
      | some tr =>
          match tr.update old_doc d1.state.doc transaction.changes with
          | Except.ok tr2 => some (some tr2)
          | Except.error _ => none
    match treeResult with
    | none => none
    | some newTree =>
        let d2 : Document := { d1 with tree := newTree }
        if d2.language_server then
          match d2.versioned_identifier with
          | none => none
          | some vid =>
              some { success := res.1
                     doc := d2
                     notes := [{ uri := vid.1, version := vid.2, oldDoc := old_doc
                                 newDoc := d2.state.doc, changes := transaction.changes }] }
        else
          some { success := res.1, doc := d2, notes := [] }

/-- `Document::apply`: capture the checkpoint when the pending change-set is
empty and the transaction is non-empty, run `_apply`, then — again regardless
of success — compose the transaction's change-set into the pending
accumulator. -/
def Document.apply (d : Document) (transaction : Transaction) : Option ApplyResult :=
  let d0 : Document :=
    if d.changes.isEmpty && !transaction.changes.isEmpty then
      { d with old_state := some d.state }
    else d
  match d0.applyImpl transaction with
  | none => none
  | some r =>
      if transaction.changes.isEmpty then some r
      else
        some { r with doc := { r.doc with changes := r.doc.changes.compose transaction.changes } }

/-- `Document::undo`: take the revert transaction off the history if one is
available (else return `false` leaving the document untouched), bump the
version, apply it through `_apply`, and re-anchor the pending accumulator at
the resulting text. -/
def Document.undo (d : Document) : Option ApplyResult :=
  match d.history.undo with
  | none => some { success := false, doc := d, notes := [] }
  | some (transaction, history') =>
      let d1 : Document := { d with history := history', version := wrap32 (d.version + 1) }
      match d1.applyImpl transaction with
      | none => none
      | some r =>
          some { r with doc := { r.doc with changes := ChangeSet.new r.doc.state.doc } }

/-- `Document::redo`: symmetric to `undo` with the forward transaction. -/
def Document.redo (d : Document) : Option ApplyResult :=
  match d.history.redo with
  | none => some { success := false, doc := d, notes := [] }
  | some (transaction, history') =>
      let d1 : Document := { d with history := history', version := wrap32 (d.version + 1) }
      match d1.applyImpl transaction with
      | none => none
      | some r =>
          some { r with doc := { r.doc with changes := ChangeSet.new r.doc.state.doc } }

/-- `Document::append_changes_to_history`: no-op when the pending change-set
is empty; otherwise build the commit transaction from the accumulated
changes plus the current selection, re-anchor the accumulator, bump the
version, take the checkpoint (the source `expect`s it — a missing checkpoint
aborts, modelled as `none`) and commit the revision. -/
def Document.append_changes_to_history (d : Document) : Option Document :=
  if d.changes.isEmpty then some d
  else
    let changes := d.changes
    let d1 : Document := { d with changes := ChangeSet.new d.state.doc }
    let transaction := (Transaction.fromChangeSet changes).with_selection d1.state.selection
    let d2 : Document := { d1 with version := wrap32 (d1.version + 1) }
    match d2.old_state with
    | none => none
    | some old_state =>
        some { d2 with old_state := none
                       history := d2.history.commit_revision transaction old_state }

/-- The failure-oracle check on the optional parse tree: all present trees
will accept their next incremental update. -/
def treeOk (o : Option ParseTree) : Bool :=
  o.all fun tr => !tr.failNext

/-- Sample state used by the concrete witnesses below: text `"hello"`,
selection at offset 5. -/
def sampleState : State :=
  { doc := "hello".toList, selection := Selection.single 5 5 }

/-- Sample freshly created document. -/
def sampleDoc : Document := Document.new sampleState

/-- Sample non-empty transaction: insert `" world"` at offset 5. -/
def sampleInsert : Transaction :=
  { changes := { changes := [Change.retain 5, Change.insert " world".toList], len := 5 }
    selection := some (Selection.single 11 11) }

/-- Empty document used by the C5 counterexample. -/
def emptyDoc : Document := Document.new { doc := [], selection := Selection.single 0 0 }

/-- Insert `"a"` into the empty document. -/
def insertA : Transaction :=
  { changes := { changes := [Change.insert ['a']], len := 0 }, selection := none }

/-- Delete that `"a"` again. -/
def deleteA : Transaction :=
  { changes := { changes := [Change.delete 1], len := 1 }, selection := none }

/-- Document with text `"a"` used by the C4 counterexample. -/
def failDoc : Document := Document.new { doc := ['a'], selection := Selection.single 0 0 }

/-- An out-of-range transaction: delete two characters from a one-character
document. -/
def failDel : Transaction :=
  { changes := { changes := [Change.delete 2], len := 1 }, selection := none }

/-- Second sample transaction: delete the `" world"` inserted by
`sampleInsert` (acting on `"hello world"`). -/
def sampleDelete : Transaction :=
  { changes := { changes := [Change.retain 5, Change.delete 6], len := 11 }
    selection := some (Selection.single 5 5) }

/-- Document at `i32::MAX` with a pending change and a live checkpoint,
about to commit its 2^31-th revision; used by the C3 counterexample. -/
def maxVerDoc : Document :=
  { Document.new { doc := ['a'], selection := Selection.single 0 0 } with
    version := 2147483647
    changes := { changes := [Change.insert ['a']], len := 0 }
    old_state := some { doc := [], selection := Selection.single 0 0 } }

theorem applyOps_retain_iff (n : Nat) (xs : List Change) (t w : List Char) :
    applyOps (Change.retain n :: xs) t = some w ↔
      n ≤ t.length ∧ ∃ u, applyOps xs (t.drop n) = some u ∧ w = t.take n ++ u := by
  simp only [applyOps]
  split <;> rename_i h
  · rw [Option.map_eq_some']
    constructor
    · rintro ⟨u, hu, rfl⟩; exact ⟨h, u, hu, rfl⟩
    · rintro ⟨-, u, hu, rfl⟩; exact ⟨u, hu, rfl⟩
  · constructor
    · intro hc; cases hc
    · rintro ⟨hn, -⟩; exact absurd hn h

theorem applyOps_delete_iff (n : Nat) (xs : List Change) (t w : List Char) :
    applyOps (Change.delete n :: xs) t = some w ↔
      n ≤ t.length ∧ applyOps xs (t.drop n) = some w := by
  simp only [applyOps]
  split <;> rename_i h
  · exact ⟨fun hu => ⟨h, hu⟩, fun ⟨_, hu⟩ => hu⟩
  · constructor
    · intro hc; cases hc
    · rintro ⟨hn, -⟩; exact absurd hn h

theorem applyOps_insert_iff (s : List Char) (xs : List Change) (t w : List Char) :
    applyOps (Change.insert s :: xs) t = some w ↔
      ∃ u, applyOps xs t = some u ∧ w = s ++ u := by
  simp only [applyOps]
  rw [Option.map_eq_some']
  constructor
  · rintro ⟨u, hu, rfl⟩; exact ⟨u, hu, rfl⟩
  · rintro ⟨u, hu, rfl⟩; exact ⟨u, hu, rfl⟩

theorem composeOps_nil_right : ∀ xs : List Change, composeOps xs [] = xs := by
  intro xs
  cases xs <;> simp [composeOps]

theorem composeOps_delete_left (n : Nat) (xs ys : List Change) :
    composeOps (Change.delete n :: xs) ys = Change.delete n :: composeOps xs ys := by
  cases ys <;> simp [composeOps, composeOps_nil_right]

-- key algebra facts, instantiated to the shapes used below
theorem append_drop_ge {a b : List Char} {n : Nat} (h : a.length ≤ n) :
    (a ++ b).drop n = b.drop (n - a.length) := by
  rw [List.drop_append_eq_append_drop, List.drop_eq_nil_of_le h, List.nil_append]

theorem append_take_ge {a b : List Char} {n : Nat} (h : a.length ≤ n) :
    (a ++ b).take n = a ++ b.take (n - a.length) := by
  rw [List.take_append_eq_append_take, List.take_of_length_le h]

theorem applyOps_composeOps : ∀ (xs ys : List Change) (t u v : List Char),
    applyOps xs t = some u → applyOps ys u = some v →
    applyOps (composeOps xs ys) t = some v := by
  intro xs ys
  induction xs, ys using composeOps.induct with
  | case1 ys =>
    intro t u v h1 h2
    simp only [applyOps, Option.some.injEq] at h1
    subst h1
    simpa [composeOps] using h2
  | case2 xs hne =>
    intro t u v h1 h2
    simp only [applyOps, Option.some.injEq] at h2
    subst h2
    rwa [composeOps_nil_right]
  | case3 n xs ys hne ih =>
    intro t u v h1 h2
    rw [applyOps_delete_iff] at h1
    obtain ⟨hn, h1⟩ := h1
    rw [composeOps_delete_left, applyOps_delete_iff]
    exact ⟨hn, ih _ _ _ h1 h2⟩
  | case4 xs s ys hne hnd ih =>
    intro t u v h1 h2
    rw [applyOps_insert_iff] at h2
    obtain ⟨v1, hv1, rfl⟩ := h2
    have hunfold : composeOps xs (Change.insert s :: ys) =
        Change.insert s :: composeOps xs ys := by
      match xs with
      | [] => exact absurd rfl (by intro h; exact hne h)
      | Change.retain m :: xs' => simp [composeOps]
      | Change.insert s' :: xs' => simp [composeOps]
      | Change.delete n :: xs' => exact absurd rfl (by intro h; exact hnd n xs' h)
    rw [hunfold, applyOps_insert_iff]
    exact ⟨v1, ih _ _ _ h1 hv1, rfl⟩
  | case5 m xs n ys hmn ih =>
    intro t u v h1 h2
    rw [applyOps_retain_iff] at h1 h2
    obtain ⟨hm, u1, hu1, rfl⟩ := h1
    obtain ⟨hn, v1, hv1, rfl⟩ := h2
    have htm : (t.take m).length = m := by simp [List.length_take]; omega
    have hn' : n ≤ m + u1.length := by simpa [List.length_append, htm] using hn
    have hdrop : (t.take m ++ u1).drop n = u1.drop (n - m) := by
      rw [append_drop_ge (by omega), htm]
    have htake : (t.take m ++ u1).take n = t.take m ++ u1.take (n - m) := by
      rw [append_take_ge (by omega), htm]
    rw [hdrop] at hv1
    rw [htake]
    have hmid : applyOps (Change.retain (n - m) :: ys) u1 = some (u1.take (n - m) ++ v1) := by
      rw [applyOps_retain_iff]
      exact ⟨by omega, v1, hv1, rfl⟩
    simp only [composeOps]
    rw [if_pos hmn, applyOps_retain_iff]
    exact ⟨hm, u1.take (n - m) ++ v1, ih _ _ _ hu1 hmid, by rw [List.append_assoc]⟩
  | case6 m xs n ys hmn hnm ih =>
    intro t u v h1 h2
    rw [applyOps_retain_iff] at h1 h2
    obtain ⟨hm, u1, hu1, rfl⟩ := h1
    obtain ⟨hn, v1, hv1, rfl⟩ := h2
    have htm : (t.take m).length = m := by simp [List.length_take]; omega
    have hdrop : (t.take m ++ u1).drop n = (t.drop n).take (m - n) ++ u1 := by
      have hnm0 : n - m = 0 := by omega
      rw [List.drop_append_eq_append_drop, htm, hnm0, List.drop_zero, List.drop_take]
    have htake : (t.take m ++ u1).take n = t.take n := by
      rw [List.take_append_of_le_length (by omega), List.take_take,
        Nat.min_eq_left (by omega)]
    rw [hdrop] at hv1
    rw [htake]
    have hleft : applyOps (Change.retain (m - n) :: xs) (t.drop n) =
        some ((t.drop n).take (m - n) ++ u1) := by
      rw [applyOps_retain_iff]
      refine ⟨by simp [List.length_drop]; omega, u1, ?_, rfl⟩
      rw [List.drop_drop]
      have : n + (m - n) = m := by omega
      rw [this]
      exact hu1
    simp only [composeOps]
    rw [if_neg hmn, if_pos hnm, applyOps_retain_iff]
    exact ⟨by omega, v1, ih _ _ _ hleft hv1, rfl⟩
  | case7 m xs n ys hmn hnm ih =>
    intro t u v h1 h2
    have heq : m = n := by omega
    subst heq
    rw [applyOps_retain_iff] at h1 h2
    obtain ⟨hm, u1, hu1, rfl⟩ := h1
    obtain ⟨hn, v1, hv1, rfl⟩ := h2
    have htm : (t.take m).length = m := by simp [List.length_take]; omega
    have hdrop : (t.take m ++ u1).drop m = u1 := by
      rw [append_drop_ge (by omega), htm, Nat.sub_self, List.drop_zero]
    have htake : (t.take m ++ u1).take m = t.take m := by
      rw [List.take_append_of_le_length (by omega), List.take_take, Nat.min_self]
    rw [hdrop] at hv1
    rw [htake]
    simp only [composeOps]
    rw [if_neg hmn, if_neg hnm, applyOps_retain_iff]
    exact ⟨hm, v1, ih _ _ _ hu1 hv1, rfl⟩
  | case8 m xs n ys hmn ih =>
    intro t u v h1 h2
    rw [applyOps_retain_iff] at h1
    rw [applyOps_delete_iff] at h2
    obtain ⟨hm, u1, hu1, rfl⟩ := h1
    obtain ⟨hn, hv⟩ := h2
    have htm : (t.take m).length = m := by simp [List.length_take]; omega
    have hn' : n ≤ m + u1.length := by simpa [List.length_append, htm] using hn
    have hdrop : (t.take m ++ u1).drop n = u1.drop (n - m) := by
      rw [append_drop_ge (by omega), htm]
    rw [hdrop] at hv
    have hmid : applyOps (Change.delete (n - m) :: ys) u1 = some v := by
      rw [applyOps_delete_iff]
      exact ⟨by omega, hv⟩
    simp only [composeOps]
    rw [if_pos hmn, applyOps_delete_iff]
    exact ⟨hm, ih _ _ _ hu1 hmid⟩
  | case9 m xs n ys hmn hnm ih =>
    intro t u v h1 h2
    rw [applyOps_retain_iff] at h1
    rw [applyOps_delete_iff] at h2
    obtain ⟨hm, u1, hu1, rfl⟩ := h1
    obtain ⟨hn, hv⟩ := h2
    have htm : (t.take m).length = m := by simp [List.length_take]; omega
    have hdrop : (t.take m ++ u1).drop n = (t.drop n).take (m - n) ++ u1 := by
      have hnm0 : n - m = 0 := by omega
      rw [List.drop_append_eq_append_drop, htm, hnm0, List.drop_zero, List.drop_take]
    rw [hdrop] at hv
    have hleft : applyOps (Change.retain (m - n) :: xs) (t.drop n) =
        some ((t.drop n).take (m - n) ++ u1) := by
      rw [applyOps_retain_iff]
      refine ⟨by simp [List.length_drop]; omega, u1, ?_, rfl⟩
      rw [List.drop_drop]
      have : n + (m - n) = m := by omega
      rw [this]
      exact hu1
    simp only [composeOps]
    rw [if_neg hmn, if_pos hnm, applyOps_delete_iff]
    exact ⟨by omega, ih _ _ _ hleft hv⟩
  | case10 m xs n ys hmn hnm ih =>
    intro t u v h1 h2
    have heq : m = n := by omega
    subst heq
    rw [applyOps_retain_iff] at h1
    rw [applyOps_delete_iff] at h2
    obtain ⟨hm, u1, hu1, rfl⟩ := h1
    obtain ⟨hn, hv⟩ := h2
    have htm : (t.take m).length = m := by simp [List.length_take]; omega
    have hdrop : (t.take m ++ u1).drop m = u1 := by
      rw [append_drop_ge (by omega), htm, Nat.sub_self, List.drop_zero]
    rw [hdrop] at hv
    simp only [composeOps]
    rw [if_neg hmn, if_neg hnm, applyOps_delete_iff]
    exact ⟨hm, ih _ _ _ hu1 hv⟩
  | case11 s xs n ys hsn ih =>
    intro t u v h1 h2
    rw [applyOps_insert_iff] at h1
    rw [applyOps_retain_iff] at h2
    obtain ⟨u1, hu1, rfl⟩ := h1
    obtain ⟨hn, v1, hv1, rfl⟩ := h2
    have hn' : n ≤ s.length + u1.length := by simpa [List.length_append] using hn
    have hdrop : (s ++ u1).drop n = u1.drop (n - s.length) := by
      rw [append_drop_ge (by omega)]
    have htake : (s ++ u1).take n = s ++ u1.take (n - s.length) := by
      rw [append_take_ge (by omega)]
    rw [hdrop] at hv1
    rw [htake]
    have hmid : applyOps (Change.retain (n - s.length) :: ys) u1 =
        some (u1.take (n - s.length) ++ v1) := by
      rw [applyOps_retain_iff]
      exact ⟨by omega, v1, hv1, rfl⟩
    simp only [composeOps]
    rw [if_pos hsn, applyOps_insert_iff]
    exact ⟨u1.take (n - s.length) ++ v1, ih _ _ _ hu1 hmid, by rw [List.append_assoc]⟩
  | case12 s xs n ys hsn hns ih =>
    intro t u v h1 h2
    rw [applyOps_insert_iff] at h1
    rw [applyOps_retain_iff] at h2
    obtain ⟨u1, hu1, rfl⟩ := h1
    obtain ⟨hn, v1, hv1, rfl⟩ := h2
    have hdrop : (s ++ u1).drop n = s.drop n ++ u1 :=
      List.drop_append_of_le_length (by omega)
    have htake : (s ++ u1).take n = s.take n :=
      List.take_append_of_le_length (by omega)
    rw [hdrop] at hv1
    rw [htake]
    have hleft : applyOps (Change.insert (s.drop n) :: xs) t = some (s.drop n ++ u1) := by
      rw [applyOps_insert_iff]
      exact ⟨u1, hu1, rfl⟩
    simp only [composeOps]
    rw [if_neg hsn, if_pos hns, applyOps_insert_iff]
    exact ⟨v1, ih _ _ _ hleft hv1, rfl⟩
  | case13 s xs n ys hsn hns ih =>
    intro t u v h1 h2
    have heq : s.length = n := by omega
    rw [applyOps_insert_iff] at h1
    rw [applyOps_retain_iff] at h2
    obtain ⟨u1, hu1, rfl⟩ := h1
    obtain ⟨hn, v1, hv1, rfl⟩ := h2
    have hdrop : (s ++ u1).drop n = u1 := by
      rw [append_drop_ge (by omega), heq, Nat.sub_self, List.drop_zero]
    have htake : (s ++ u1).take n = s := by
      rw [List.take_append_of_le_length (by omega), ← heq, List.take_length]
    rw [hdrop] at hv1
    rw [htake]
    simp only [composeOps]
    rw [if_neg hsn, if_neg hns, applyOps_insert_iff]
    exact ⟨v1, ih _ _ _ hu1 hv1, rfl⟩
  | case14 s xs n ys hsn ih =>
    intro t u v h1 h2
    rw [applyOps_insert_iff] at h1
    rw [applyOps_delete_iff] at h2
    obtain ⟨u1, hu1, rfl⟩ := h1
    obtain ⟨hn, hv⟩ := h2
    have hn' : n ≤ s.length + u1.length := by simpa [List.length_append] using hn
    have hdrop : (s ++ u1).drop n = u1.drop (n - s.length) := by
      rw [append_drop_ge (by omega)]
    rw [hdrop] at hv
    have hmid : applyOps (Change.delete (n - s.length) :: ys) u1 = some v := by
      rw [applyOps_delete_iff]
      exact ⟨by omega, hv⟩
    simp only [composeOps]
    rw [if_pos hsn]
    exact ih _ _ _ hu1 hmid
  | case15 s xs n ys hsn hns ih =>
    intro t u v h1 h2
    rw [applyOps_insert_iff] at h1
    rw [applyOps_delete_iff] at h2
    obtain ⟨u1, hu1, rfl⟩ := h1
    obtain ⟨hn, hv⟩ := h2
    have hdrop : (s ++ u1).drop n = s.drop n ++ u1 :=
      List.drop_append_of_le_length (by omega)
    rw [hdrop] at hv
    have hleft : applyOps (Change.insert (s.drop n) :: xs) t = some (s.drop n ++ u1) := by
      rw [applyOps_insert_iff]
      exact ⟨u1, hu1, rfl⟩
    simp only [composeOps]
    rw [if_neg hsn, if_pos hns]
    exact ih _ _ _ hleft hv
  | case16 s xs n ys hsn hns ih =>
    intro t u v h1 h2
    have heq : s.length = n := by omega
    rw [applyOps_insert_iff] at h1
    rw [applyOps_delete_iff] at h2
    obtain ⟨u1, hu1, rfl⟩ := h1
    obtain ⟨hn, hv⟩ := h2
    have hdrop : (s ++ u1).drop n = u1 := by
      rw [append_drop_ge (by omega), heq, Nat.sub_self, List.drop_zero]
    rw [hdrop] at hv
    simp only [composeOps]
    rw [if_neg hsn, if_neg hns]
    exact ih _ _ _ hu1 hv

theorem deltaOps_nil : deltaOps [] = 0 := rfl

theorem deltaOps_cons (c : Change) (xs : List Change) :
    deltaOps (c :: xs) = c.delta + deltaOps xs := by
  simp [deltaOps]

theorem applyOps_length : ∀ (xs : List Change) (t u : List Char),
    applyOps xs t = some u → (u.length : Int) = t.length + deltaOps xs := by
  intro xs
  induction xs with
  | nil =>
    intro t u h
    simp [applyOps] at h
    subst h
    simp [deltaOps_nil]
  | cons c xs ih =>
    intro t u h
    cases c with
    | retain n =>
      simp only [applyOps] at h
      split at h
      · rename_i hn
        rw [Option.map_eq_some'] at h
        obtain ⟨u', hu', rfl⟩ := h
        have h2 := ih _ _ hu'
        rw [deltaOps_cons]
        simp only [List.length_append, List.length_take, List.length_drop, Change.delta] at *
        omega
      · exact absurd h (by simp)
    | delete n =>
      simp only [applyOps] at h
      split at h
      · rename_i hn
        have h2 := ih _ _ h
        rw [deltaOps_cons]
        simp only [List.length_drop, Change.delta] at *
        omega
      · exact absurd h (by simp)
    | insert s =>
      simp only [applyOps] at h
      rw [Option.map_eq_some'] at h
      obtain ⟨u', hu', rfl⟩ := h
      have h2 := ih _ _ hu'
      rw [deltaOps_cons]
      simp only [List.length_append, Change.delta] at *
      omega

theorem applyOps_invertOps : ∀ (xs : List Change) (t u : List Char),
    applyOps xs t = some u → applyOps (invertOps xs t) u = some t := by
  intro xs
  induction xs with
  | nil =>
    intro t u h
    simp [applyOps] at h
    subst h
    simp [invertOps, applyOps]
  | cons c xs ih =>
    intro t u h
    cases c with
    | retain n =>
      simp only [applyOps] at h
      split at h
      · rename_i hn
        rw [Option.map_eq_some'] at h
        obtain ⟨u', hu', rfl⟩ := h
        have h2 := ih _ _ hu'
        simp only [invertOps, applyOps, List.length_append, List.length_take]
        rw [if_pos (by omega)]
        rw [List.take_append_of_le_length (by simp [List.length_take]; omega)]
        rw [List.drop_append_of_le_length (by simp [List.length_take]; omega)]
        simp only [List.take_take, min_self, List.drop_take, Nat.sub_self, List.take_zero,
          List.nil_append]
        rw [h2]
        simp [List.take_append_drop]
      · exact absurd h (by simp)
    | delete n =>
      simp only [applyOps] at h
      split at h
      · rename_i hn
        have h2 := ih _ _ h
        simp only [invertOps, applyOps]
        rw [h2]
        simp [List.take_append_drop]
      · exact absurd h (by simp)
    | insert s =>
      simp only [applyOps] at h
      rw [Option.map_eq_some'] at h
      obtain ⟨u', hu', rfl⟩ := h
      have h2 := ih _ _ hu'
      simp only [invertOps, applyOps, List.length_append]
      rw [if_pos (by omega)]
      rw [List.drop_append_of_le_length (by omega)]
      simp [h2]

/-- A change-set application succeeds only on a document of the anchored
length. -/
theorem ChangeSet.apply_some_len {c : ChangeSet} {t u : List Char}
    (h : c.apply t = some u) : t.length = c.len := by
  unfold ChangeSet.apply at h
  split at h
  · assumption
  · cases h

/-- A successful change-set application produces a text of length
`lenAfter`. -/
theorem ChangeSet.apply_length {c : ChangeSet} {t u : List Char}
    (h : c.apply t = some u) : u.length = c.lenAfter := by
  have hlen := ChangeSet.apply_some_len h
  unfold ChangeSet.apply at h
  rw [if_pos hlen] at h
  have hd := applyOps_length _ _ _ h
  unfold ChangeSet.lenAfter
  omega

/-- Undo correctness of the change-set model: the inverse applied to the
produced text restores the original text. -/
theorem ChangeSet.invert_apply {c : ChangeSet} {t u : List Char}
    (h : c.apply t = some u) : (c.invert t).apply u = some t := by
  have hafter := ChangeSet.apply_length h
  have hlen := ChangeSet.apply_some_len h
  unfold ChangeSet.apply at h
  rw [if_pos hlen] at h
  unfold ChangeSet.apply ChangeSet.invert
  simp only
  rw [if_pos hafter]
  exact applyOps_invertOps _ _ _ h

/-- Composition correctness at the change-set level: composing two
sequentially applicable change-sets gives a change-set mapping the first
input directly to the second output. -/
theorem ChangeSet.compose_apply {a b : ChangeSet} {t u v : List Char}
    (h1 : a.apply t = some u) (h2 : b.apply u = some v) :
    (a.compose b).apply t = some v := by
  have hlen1 := ChangeSet.apply_some_len h1
  have hlen2 := ChangeSet.apply_some_len h2
  unfold ChangeSet.apply at h1 h2
  rw [if_pos hlen1] at h1
  rw [if_pos hlen2] at h2
  unfold ChangeSet.apply ChangeSet.compose
  simp only
  rw [if_pos hlen1]
  exact applyOps_composeOps _ _ _ _ _ h1 h2

/-- Inverting preserves (non-)emptiness. -/
theorem ChangeSet.invert_isEmpty (c : ChangeSet) (t : List Char) :
    (c.invert t).isEmpty = c.isEmpty := by
  unfold ChangeSet.invert ChangeSet.isEmpty
  cases hc : c.changes with
  | nil => simp [invertOps]
  | cons x xs => cases x <;> simp [invertOps]

/-- Characterization of a transaction whose edit applies successfully. -/
theorem Transaction.apply_of_changes_some {t : Transaction} {s : State} {u : List Char}
    (hne : t.changes.isEmpty = false) (h : t.changes.apply s.doc = some u) :
    t.apply s = (true, { doc := u
                         selection := t.selection.getD
                           (Selection.mapThrough t.changes s.selection) }) := by
  unfold Transaction.apply
  rw [hne]
  simp only [Bool.false_eq_true, if_false, h]

/-- Characterization of a transaction whose edit fails to apply. -/
theorem Transaction.apply_of_changes_none {t : Transaction} {s : State}
    (hne : t.changes.isEmpty = false) (h : t.changes.apply s.doc = none) :
    t.apply s = (false, s) := by
  unfold Transaction.apply
  rw [hne]
  simp only [Bool.false_eq_true, if_false, h]

/-- The returned boolean is false exactly when the edit application itself
failed (a non-empty change-set that does not apply). -/
theorem Transaction.apply_false_iff (t : Transaction) (s : State) :
    (t.apply s).1 = false ↔
      t.changes.isEmpty = false ∧ t.changes.apply s.doc = none := by
  unfold Transaction.apply
  split <;> rename_i hemp
  · simp [hemp]
  · cases hch : t.changes.apply s.doc <;>
      simp_all [Bool.not_eq_true]

/-- Frame and inversion facts about `_apply` that hold whenever it returns
at all: it changes only the text state and the parse tree, its boolean is
the transaction's, and the new text state is the transaction's. -/
theorem applyImpl_spec {d : Document} {t : Transaction} {r : ApplyResult}
    (h : d.applyImpl t = some r) :
    r.success = (t.apply d.state).1 ∧
    r.doc.state = (t.apply d.state).2 ∧
    r.doc.path = d.path ∧
    r.doc.mode = d.mode ∧
    r.doc.restore_cursor = d.restore_cursor ∧
    r.doc.language = d.language ∧
    r.doc.changes = d.changes ∧
    r.doc.old_state = d.old_state ∧
    r.doc.history = d.history ∧
    r.doc.version = d.version ∧
    r.doc.diagnostics = d.diagnostics ∧
    r.doc.language_server = d.language_server := by
  unfold Document.applyImpl at h
  simp only at h
  split at h
  · cases h
    simp
  · split at h
    · cases h
    · split at h
      · split at h
        · cases h
        · cases h
          simp
      · cases h
        simp

/-- Inversion facts about `Document::apply` whenever it returns: the boolean
and the new text state come from the transaction, the checkpoint is captured
exactly when the accumulator was empty and the transaction non-empty, and a
non-empty transaction is composed into the accumulator regardless of
success. -/
theorem apply_spec {d : Document} {t : Transaction} {r : ApplyResult}
    (h : d.apply t = some r) :
    r.success = (t.apply d.state).1 ∧
    r.doc.state = (t.apply d.state).2 ∧
    r.doc.changes = (if t.changes.isEmpty then d.changes else d.changes.compose t.changes) ∧
    r.doc.old_state = (if d.changes.isEmpty && !t.changes.isEmpty then some d.state
                       else d.old_state) ∧
    r.doc.path = d.path ∧
    r.doc.mode = d.mode ∧
    r.doc.language = d.language ∧
    r.doc.history = d.history ∧
    r.doc.version = d.version ∧
    r.doc.language_server = d.language_server := by
  unfold Document.apply at h
  simp only at h
  cases hcap : (d.changes.isEmpty && !t.changes.isEmpty) <;> rw [hcap] at h
  · simp only [Bool.false_eq_true, if_false] at h
    cases himp : d.applyImpl t with
    | none => rw [himp] at h; cases h
    | some r0 =>
      rw [himp] at h
      obtain ⟨hs, hst, hp, hm, hrc, hl, hc, ho, hh, hv, hdg, hls⟩ := applyImpl_spec himp
      cases ht : t.changes.isEmpty <;> rw [ht] at h <;>
        simp only [Bool.false_eq_true, if_false, if_true, Option.some.injEq] at h <;>
        subst h <;>
        simp_all
  · simp only [if_true] at h
    cases himp : Document.applyImpl { d with old_state := some d.state } t with
    | none => rw [himp] at h; cases h
    | some r0 =>
      rw [himp] at h
      obtain ⟨hs, hst, hp, hm, hrc, hl, hc, ho, hh, hv, hdg, hls⟩ := applyImpl_spec himp
      cases ht : t.changes.isEmpty <;> rw [ht] at h <;>
        simp only [Bool.false_eq_true, if_false, if_true, Option.some.injEq] at h <;>
        subst h <;>
        simp_all

/-- Full forward characterization of `_apply` in the non-aborting situation:
every present parse tree accepts its next update, and a present
language-server binding implies a present path. -/
theorem applyImpl_eq (d : Document) (t : Transaction)
    (hok : treeOk d.tree = true) (hlsp : d.language_server = true → d.path.isSome) :
    d.applyImpl t = some
      { success := (t.apply d.state).1
        doc := { d with
          state := (t.apply d.state).2
          tree := if t.changes.isEmpty then d.tree
                  else d.tree.map
                    (fun _ => { text := (t.apply d.state).2.doc, failNext := false }) }
        notes := if t.changes.isEmpty then []
                 else if d.language_server then
                   [{ uri := d.path.getD [], version := d.version, oldDoc := d.state.doc
                      newDoc := (t.apply d.state).2.doc, changes := t.changes }]
                 else [] } := by
  unfold Document.applyImpl
  simp only
  cases ht : t.changes.isEmpty <;>
    simp only [Bool.false_eq_true, if_false, if_true]
  · cases htr : d.tree with
    | none =>
      simp only [Option.map_none]
      cases hls : d.language_server <;>
        simp only [Bool.false_eq_true, if_false, if_true]
      · rfl
      · obtain ⟨p, hp⟩ := Option.isSome_iff_exists.mp (hlsp hls)
        unfold Document.versioned_identifier
        simp [hp]
    | some tr =>
      have hfn : tr.failNext = false := by
        simp [treeOk, htr] at hok
        exact hok
      unfold ParseTree.update
      simp only [hfn, Bool.false_eq_true, if_false, Option.map_some]
      cases hls : d.language_server <;>
        simp only [Bool.false_eq_true, if_false, if_true]
      · rfl
      · obtain ⟨p, hp⟩ := Option.isSome_iff_exists.mp (hlsp hls)
        unfold Document.versioned_identifier
        simp [hp]

/-- Full forward characterization of `Document::apply` in the non-aborting
situation. -/
theorem apply_eq (d : Document) (t : Transaction)
    (hok : treeOk d.tree = true) (hlsp : d.language_server = true → d.path.isSome) :
    d.apply t = some
      { success := (t.apply d.state).1
        doc := { d with
          state := (t.apply d.state).2
          tree := if t.changes.isEmpty then d.tree
                  else d.tree.map
                    (fun _ => { text := (t.apply d.state).2.doc, failNext := false })
          old_state := if d.changes.isEmpty && !t.changes.isEmpty then some d.state
                       else d.old_state
          changes := if t.changes.isEmpty then d.changes
                     else d.changes.compose t.changes }
        notes := if t.changes.isEmpty then []
                 else if d.language_server then
                   [{ uri := d.path.getD [], version := d.version, oldDoc := d.state.doc
                      newDoc := (t.apply d.state).2.doc, changes := t.changes }]
                 else [] } := by
  unfold Document.apply
  simp only
  cases hcap : (d.changes.isEmpty && !t.changes.isEmpty) <;>
    simp only [Bool.false_eq_true, if_false, if_true]
  · rw [applyImpl_eq d t hok hlsp]
    cases ht : t.changes.isEmpty <;>
      simp_all
  · have ht : t.changes.isEmpty = false := by
      cases h' : t.changes.isEmpty
      · rfl
      · rw [h'] at hcap; simp at hcap
    rw [applyImpl_eq { d with old_state := some d.state } t hok hlsp]
    simp_all

/-- Forward characterization of `Document::undo` when a revision is
available and nothing aborts. -/
theorem undo_eq (d : Document) (tr : Transaction) (h' : History)
    (hu : d.history.undo = some (tr, h'))
    (hok : treeOk d.tree = true) (hlsp : d.language_server = true → d.path.isSome) :
    d.undo = some
      { success := (tr.apply d.state).1
        doc := { d with
          history := h'
          version := wrap32 (d.version + 1)
          state := (tr.apply d.state).2
          tree := if tr.changes.isEmpty then d.tree
                  else d.tree.map
                    (fun _ => { text := (tr.apply d.state).2.doc, failNext := false })
          changes := ChangeSet.new (tr.apply d.state).2.doc }
        notes := if tr.changes.isEmpty then []
                 else if d.language_server then
                   [{ uri := d.path.getD [], version := wrap32 (d.version + 1), oldDoc := d.state.doc
                      newDoc := (tr.apply d.state).2.doc, changes := tr.changes }]
                 else [] } := by
  unfold Document.undo
  rw [hu]
  simp only
  rw [applyImpl_eq { d with history := h', version := wrap32 (d.version + 1) } tr hok hlsp]

/-- Forward characterization of `Document::redo` when a revision is
available and nothing aborts. -/
theorem redo_eq (d : Document) (tr : Transaction) (h' : History)
    (hr : d.history.redo = some (tr, h'))
    (hok : treeOk d.tree = true) (hlsp : d.language_server = true → d.path.isSome) :
    d.redo = some
      { success := (tr.apply d.state).1
        doc := { d with
          history := h'
          version := wrap32 (d.version + 1)
          state := (tr.apply d.state).2
          tree := if tr.changes.isEmpty then d.tree
                  else d.tree.map
                    (fun _ => { text := (tr.apply d.state).2.doc, failNext := false })
          changes := ChangeSet.new (tr.apply d.state).2.doc }
        notes := if tr.changes.isEmpty then []
                 else if d.language_server then
                   [{ uri := d.path.getD [], version := wrap32 (d.version + 1), oldDoc := d.state.doc
                      newDoc := (tr.apply d.state).2.doc, changes := tr.changes }]
                 else [] } := by
  unfold Document.redo
  rw [hr]
  simp only
  rw [applyImpl_eq { d with history := h', version := wrap32 (d.version + 1) } tr hok hlsp]

/-- Forward characterization of a non-empty commit with a live checkpoint. -/
theorem append_eq (d : Document) (os : State)
    (hne : d.changes.isEmpty = false) (ho : d.old_state = some os) :
    d.append_changes_to_history = some
      { d with
        changes := ChangeSet.new d.state.doc
        version := wrap32 (d.version + 1)
        old_state := none
        history := d.history.commit_revision
          ((Transaction.fromChangeSet d.changes).with_selection d.state.selection) os } := by
  unfold Document.append_changes_to_history
  rw [hne]
  simp only [Bool.false_eq_true, if_false, ho]

/-- The parse tree after `_apply`: unchanged for an empty transaction,
otherwise replaced by the successfully updated tree. -/
theorem applyImpl_tree {d : Document} {t : Transaction} {r : ApplyResult}
    (h : d.applyImpl t = some r) :
    r.doc.tree = if t.changes.isEmpty then d.tree
                 else d.tree.map
                   (fun _ => { text := (t.apply d.state).2.doc, failNext := false }) := by
  unfold Document.applyImpl at h
  simp only at h
  split at h <;> rename_i hemp
  · cases h
    simp [hemp]
  · rw [if_neg hemp]
    split at h <;> rename_i htr
    · cases h
    · rename_i newTree
      split at htr <;> rename_i htree
      · cases htr
        split at h
        · split at h
          · cases h
          · cases h
            simp [htree]
        · cases h
          simp [htree]
      · rename_i tr
        split at htr <;> rename_i hupd
        · cases htr
          unfold ParseTree.update at hupd
          split at hupd
          · cases hupd
          · cases hupd
            split at h
            · split at h
              · cases h
              · cases h
                simp [htree]
            · cases h
              simp [htree]
        · cases htr

/-- The parse tree after `Document::apply`. -/
theorem apply_tree {d : Document} {t : Transaction} {r : ApplyResult}
    (h : d.apply t = some r) :
    r.doc.tree = if t.changes.isEmpty then d.tree
                 else d.tree.map
                   (fun _ => { text := (t.apply d.state).2.doc, failNext := false }) := by
  unfold Document.apply at h
  simp only at h
  cases hcap : (d.changes.isEmpty && !t.changes.isEmpty) <;> rw [hcap] at h <;>
    simp only [Bool.false_eq_true, if_false, if_true] at h
  · cases himp : d.applyImpl t with
    | none => rw [himp] at h; cases h
    | some r0 =>
      rw [himp] at h
      have htree := applyImpl_tree himp
      cases ht : t.changes.isEmpty <;> rw [ht] at h htree <;>
        simp only [Bool.false_eq_true, if_false, if_true, Option.some.injEq] at h htree ⊢ <;>
        subst h <;> simp_all
  · cases himp : Document.applyImpl { d with old_state := some d.state } t with
    | none => rw [himp] at h; cases h
    | some r0 =>
      rw [himp] at h
      have htree := applyImpl_tree himp
      cases ht : t.changes.isEmpty <;> rw [ht] at h htree <;>
        simp only [Bool.false_eq_true, if_false, if_true, Option.some.injEq] at h htree ⊢ <;>
        subst h <;> simp_all

/-- A tree produced by a successful update accepts its next update. -/
theorem treeOk_map (o : Option ParseTree) (x : List Char) :
    treeOk (o.map fun _ => { text := x, failNext := false }) = true := by
  cases o <;> simp [treeOk]

/-- `apply` preserves the no-abort tree condition. -/
theorem apply_treeOk {d : Document} {t : Transaction} {r : ApplyResult}
    (h : d.apply t = some r) (hok : treeOk d.tree = true) : treeOk r.doc.tree = true := by
  rw [apply_tree h]
  split
  · exact hok
  · exact treeOk_map _ _

/-- The empty change-set anchored at a text applies to it as the identity. -/
theorem ChangeSet.new_apply (doc : List Char) :
    (ChangeSet.new doc).apply doc = some doc := by
  simp [ChangeSet.new, ChangeSet.apply, applyOps]

/-- Composing the empty anchored change-set with another keeps the other's
operations, re-anchored. -/
theorem ChangeSet.new_compose (doc : List Char) (c : ChangeSet) :
    (ChangeSet.new doc).compose c = { changes := c.changes, len := doc.length } := by
  simp [ChangeSet.new, ChangeSet.compose, composeOps]

/-- `undo` either leaves the document untouched or empties the pending
accumulator. -/
theorem undo_changes {d : Document} {r : ApplyResult} (h : d.undo = some r) :
    r.doc = d ∨ r.doc.changes.isEmpty = true := by
  unfold Document.undo at h
  cases hh : d.history.undo with
  | none => rw [hh] at h; cases h; exact Or.inl rfl
  | some p =>
    rw [hh] at h
    simp only at h
    cases himp : Document.applyImpl { d with history := p.2, version := wrap32 (d.version + 1) } p.1 with
    | none => rw [himp] at h; cases h
    | some r0 =>
      rw [himp] at h
      cases h
      exact Or.inr (by simp [ChangeSet.isEmpty, ChangeSet.new])

/-- `redo` either leaves the document untouched or empties the pending
accumulator. -/
theorem redo_changes {d : Document} {r : ApplyResult} (h : d.redo = some r) :
    r.doc = d ∨ r.doc.changes.isEmpty = true := by
  unfold Document.redo at h
  cases hh : d.history.redo with
  | none => rw [hh] at h; cases h; exact Or.inl rfl
  | some p =>
    rw [hh] at h
    simp only at h
    cases himp : Document.applyImpl { d with history := p.2, version := wrap32 (d.version + 1) } p.1 with
    | none => rw [himp] at h; cases h
    | some r0 =>
      rw [himp] at h
      cases h
      exact Or.inr (by simp [ChangeSet.isEmpty, ChangeSet.new])

/-- Version arithmetic of `undo`: bumped exactly when a revision was
available. -/
theorem undo_version {d : Document} {r : ApplyResult} (h : d.undo = some r) :
    r.doc.version = (if (d.history.undo).isSome then wrap32 (d.version + 1)
                     else d.version) := by
  unfold Document.undo at h
  cases hh : d.history.undo with
  | none => rw [hh] at h; cases h; simp [hh]
  | some p =>
    rw [hh] at h
    simp only at h
    cases himp : Document.applyImpl { d with history := p.2, version := wrap32 (d.version + 1) } p.1 with
    | none => rw [himp] at h; cases h
    | some r0 =>
      rw [himp] at h
      cases h
      obtain ⟨-, -, -, -, -, -, -, -, -, hv, -, -⟩ := applyImpl_spec himp
      simp only [hh, Option.isSome_some, if_true]
      simpa using hv

/-- Version arithmetic of `redo`: bumped exactly when a revision was
available. -/
theorem redo_version {d : Document} {r : ApplyResult} (h : d.redo = some r) :
    r.doc.version = (if (d.history.redo).isSome then wrap32 (d.version + 1)
                     else d.version) := by
  unfold Document.redo at h
  cases hh : d.history.redo with
  | none => rw [hh] at h; cases h; simp [hh]
  | some p =>
    rw [hh] at h
    simp only at h
    cases himp : Document.applyImpl { d with history := p.2, version := wrap32 (d.version + 1) } p.1 with
    | none => rw [himp] at h; cases h
    | some r0 =>
      rw [himp] at h
      cases h
      obtain ⟨-, -, -, -, -, -, -, -, -, hv, -, -⟩ := applyImpl_spec himp
      simp only [hh, Option.isSome_some, if_true]
      simpa using hv

/-- Version arithmetic of a commit: bumped exactly when the pending
change-set was non-empty. -/
theorem append_version {d d2 : Document} (h : d.append_changes_to_history = some d2) :
    d2.version = (if d.changes.isEmpty then d.version else wrap32 (d.version + 1)) := by
  unfold Document.append_changes_to_history at h
  cases hc : d.changes.isEmpty <;> rw [hc] at h <;>
    simp only [Bool.false_eq_true, if_false, if_true, Option.some.injEq] at h
  · split at h
    · cases h
    · cases h; simp
  · subst h; simp

/-- A commit leaves the document untouched or empties the accumulator. -/
theorem append_changes {d d2 : Document} (h : d.append_changes_to_history = some d2) :
    d2 = d ∨ d2.changes.isEmpty = true := by
  unfold Document.append_changes_to_history at h
  cases hc : d.changes.isEmpty <;> rw [hc] at h <;>
    simp only [Bool.false_eq_true, if_false, if_true, Option.some.injEq] at h
  · split at h
    · cases h
    · cases h
      exact Or.inr (by simp [ChangeSet.isEmpty, ChangeSet.new])
  · exact Or.inl h.symm

/-- C10: `Document::set_selection` replaces only the selection component of
the text state; the buffer, version counter, pending change-set, checkpoint,
undo history, parse tree, language, path, and mode are all unchanged. -/
theorem set_selection_frame (d : Document) (sel : Selection) :
    (d.set_selection sel).state.selection = sel ∧
    (d.set_selection sel).state.doc = d.state.doc ∧
    (d.set_selection sel).version = d.version ∧
    (d.set_selection sel).changes = d.changes ∧
    (d.set_selection sel).old_state = d.old_state ∧
    (d.set_selection sel).history = d.history ∧
    (d.set_selection sel).tree = d.tree ∧
    (d.set_selection sel).language = d.language ∧
    (d.set_selection sel).path = d.path ∧
    (d.set_selection sel).mode = d.mode := by
  simp [Document.set_selection]

/-- C9: divergence witness.  `Document::save` on a document whose backing
path is absent aborts via `expect("Can't save with no path set!")` (modelled
as `none`) instead of returning a failure result to the caller; evaluated on
a freshly created document, whose path is `none`. -/
theorem save_without_path_aborts : sampleDoc.save = none := rfl

/-- C7: divergence witness.  A failing incremental parse-tree update during
an otherwise successful non-empty `apply` hits the source's `.unwrap()` and
aborts the process (modelled as `none`) instead of completing with the tree
invalidated. -/
theorem apply_tree_failure_aborts :
    ({ sampleDoc with tree := some { text := "hello".toList, failNext := true } }).apply
      sampleInsert = none := rfl

/-- C8: `undo` on an empty history returns false and leaves the whole
document unchanged, and a commit with an empty pending change-set is a
no-op. -/
theorem noop_guarantees :
    (∀ d : Document, d.history = History.default →
        d.undo = some { success := false, doc := d, notes := [] }) ∧
    (∀ d : Document, d.changes.isEmpty = true → d.append_changes_to_history = some d) := by
  constructor
  · intro d hd
    unfold Document.undo
    rw [hd]
    rfl
  · intro d hd
    unfold Document.append_changes_to_history
    rw [hd]
    rfl

/-- Witness for C8 on a concrete freshly created document. -/
theorem noop_guarantees_witness :
    sampleDoc.history = History.default ∧
    sampleDoc.undo = some { success := false, doc := sampleDoc, notes := [] } ∧
    sampleDoc.changes.isEmpty = true ∧
    sampleDoc.append_changes_to_history = some sampleDoc :=
  ⟨rfl, noop_guarantees.1 sampleDoc rfl, rfl, noop_guarantees.2 sampleDoc rfl⟩

/-- C6: `Document::apply` stores a checkpoint snapshot of the pre-mutation
text state in `old_state` exactly when the pending change-set is empty and
the transaction's change-set is non-empty; otherwise `old_state` is left as
is. -/
theorem apply_checkpoint_capture {d : Document} {t : Transaction} {r : ApplyResult}
    (h : d.apply t = some r) :
    r.doc.old_state = if d.changes.isEmpty && !t.changes.isEmpty then some d.state
                      else d.old_state :=
  (apply_spec h).2.2.2.1

/-- Witness for C6: on a fresh document a non-empty insert captures the
pre-edit state. -/
theorem apply_checkpoint_capture_witness :
    ∃ r : ApplyResult, sampleDoc.apply sampleInsert = some r ∧
      r.doc.old_state = some sampleDoc.state := by
  have h := apply_eq sampleDoc sampleInsert (by decide) (by decide)
  refine ⟨_, h, ?_⟩
  rw [apply_checkpoint_capture h]
  decide

/-- C3 counterexample: at `version = i32::MAX` one more commit wraps the
release-build counter to `i32::MIN`: the version decreases and does not
increase by 1, refuting the original monotonicity/exact-increment claim on
the faithful 32-bit model (debug builds panic at this point instead). -/
theorem version_counter_cex :
    ∃ d2 : Document, maxVerDoc.append_changes_to_history = some d2 ∧
      d2.version = -2147483648 ∧ d2.version < maxVerDoc.version := by
  refine ⟨_, rfl, by decide, by decide⟩

/-- C3 amended: the version counter starts at 0; raw `apply` never changes
it; undo and redo set it to the 32-bit-wrapped increment exactly when a
revision is available, and a commit does so exactly when the pending
change-set is non-empty, leaving it unchanged otherwise.  Below the `i32`
wrap point — i.e. unless 2^31 revisions have been committed — the change is
exactly +1 and the version never decreases; at `i32::MAX` the release-build
increment wraps to `i32::MIN` (see the counterexample). -/
theorem version_counter_wrapped :
    (∀ s : State, (Document.new s).version = 0) ∧
    (∀ (d : Document) (t : Transaction) (r : ApplyResult),
        d.apply t = some r → r.doc.version = d.version) ∧
    (∀ (d : Document) (r : ApplyResult), d.undo = some r →
        r.doc.version = (if (d.history.undo).isSome then wrap32 (d.version + 1)
                         else d.version)) ∧
    (∀ (d : Document) (r : ApplyResult), d.redo = some r →
        r.doc.version = (if (d.history.redo).isSome then wrap32 (d.version + 1)
                         else d.version)) ∧
    (∀ (d d2 : Document), d.append_changes_to_history = some d2 →
        d2.version = (if d.changes.isEmpty then d.version
                      else wrap32 (d.version + 1))) ∧
    (∀ (d : Document) (r : ApplyResult), d.undo = some r →
        -2147483648 ≤ d.version → d.version < 2147483647 →
        r.doc.version = d.version + (if (d.history.undo).isSome then 1 else 0)) ∧
    (∀ (d : Document) (r : ApplyResult), d.redo = some r →
        -2147483648 ≤ d.version → d.version < 2147483647 →
        r.doc.version = d.version + (if (d.history.redo).isSome then 1 else 0)) ∧
    (∀ (d d2 : Document), d.append_changes_to_history = some d2 →
        -2147483648 ≤ d.version → d.version < 2147483647 →
        d2.version = d.version + (if d.changes.isEmpty then 0 else 1)) ∧
    (∀ (d : Document) (t : Transaction) (r : ApplyResult),
        d.apply t = some r → d.version ≤ r.doc.version) ∧
    (∀ (d : Document) (r : ApplyResult), d.undo = some r →
        -2147483648 ≤ d.version → d.version < 2147483647 →
        d.version ≤ r.doc.version) ∧
    (∀ (d : Document) (r : ApplyResult), d.redo = some r →
        -2147483648 ≤ d.version → d.version < 2147483647 →
        d.version ≤ r.doc.version) ∧
    (∀ (d d2 : Document), d.append_changes_to_history = some d2 →
        -2147483648 ≤ d.version → d.version < 2147483647 →
        d.version ≤ d2.version) := by
  have hwrap : ∀ x : Int, -2147483648 ≤ x → x < 2147483647 → wrap32 (x + 1) = x + 1 := by
    intro x h1 h2
    unfold wrap32
    omega
  refine ⟨fun s => rfl, ?_, ?_, ?_, ?_, ?_, ?_, ?_, ?_, ?_, ?_, ?_⟩
  · intro d t r h
    exact (apply_spec h).2.2.2.2.2.2.2.2.1
  · intro d r h
    exact undo_version h
  · intro d r h
    exact redo_version h
  · intro d d2 h
    exact append_version h
  · intro d r h h1 h2
    rw [undo_version h]
    split
    · rw [hwrap d.version h1 h2]
    · omega
  · intro d r h h1 h2
    rw [redo_version h]
    split
    · rw [hwrap d.version h1 h2]
    · omega
  · intro d d2 h h1 h2
    rw [append_version h]
    split
    · omega
    · rw [hwrap d.version h1 h2]
  · intro d t r h
    rw [(apply_spec h).2.2.2.2.2.2.2.2.1]
  · intro d r h h1 h2
    rw [undo_version h]
    split
    · rw [hwrap d.version h1 h2]
      omega
    · omega
  · intro d r h h1 h2
    rw [redo_version h]
    split
    · rw [hwrap d.version h1 h2]
      omega
    · omega
  · intro d d2 h h1 h2
    rw [append_version h]
    split
    · omega
    · rw [hwrap d.version h1 h2]
      omega

/-- Witness for the amended C3 on concrete documents and operations. -/
theorem version_counter_wrapped_witness :
    (Document.new sampleState).version = 0 ∧
    (∃ r : ApplyResult, sampleDoc.apply sampleInsert = some r ∧
        r.doc.version = sampleDoc.version) ∧
    (-2147483648 ≤ sampleDoc.version ∧ sampleDoc.version < 2147483647) ∧
    (∃ r : ApplyResult, sampleDoc.undo = some r ∧
        r.doc.version = sampleDoc.version +
          (if (sampleDoc.history.undo).isSome then 1 else 0)) ∧
    (∃ d2 : Document, sampleDoc.append_changes_to_history = some d2 ∧
        d2.version = sampleDoc.version +
          (if sampleDoc.changes.isEmpty then 0 else 1)) := by
  have ha := apply_eq sampleDoc sampleInsert (by decide) (by decide)
  have hu : sampleDoc.undo = some { success := false, doc := sampleDoc, notes := [] } := rfl
  have hc : sampleDoc.append_changes_to_history = some sampleDoc := rfl
  exact ⟨version_counter_wrapped.1 sampleState,
    ⟨_, ha, version_counter_wrapped.2.1 _ _ _ ha⟩,
    ⟨by decide, by decide⟩,
    ⟨_, hu, version_counter_wrapped.2.2.2.2.2.1 _ _ hu (by decide) (by decide)⟩,
    ⟨_, hc, version_counter_wrapped.2.2.2.2.2.2.2.1 _ _ hc (by decide) (by decide)⟩⟩

/-- C5 counterexample: after applying an insert and then its inverse delete
(two public `apply` operations, no commit), the pending change-set composes
to empty while the checkpoint is still present — the claimed "if and only
if" fails. -/
theorem checkpoint_iff_cex :
    ((emptyDoc.apply insertA).bind (fun r1 => r1.doc.apply deleteA)).map
        (fun r2 => (r2.doc.old_state.isSome, r2.doc.changes.isEmpty)) =
      some (true, true) := by
  simp [emptyDoc, insertA, deleteA, Document.apply, Document.applyImpl, Document.new,
    Transaction.apply, ChangeSet.apply, ChangeSet.new, ChangeSet.isEmpty, ChangeSet.compose,
    composeOps, applyOps, Selection.mapThrough, Selection.single, mapPosOps,
    History.default]

/-- C5 amended: after every public operation, a non-empty pending change-set
implies a present checkpoint (assuming this implication held before the
operation); the converse direction of the claimed equivalence is refuted by
the counterexample (the checkpoint may stay present with an empty pending
change-set). -/
theorem checkpoint_weak_invariant (d : Document)
    (hW : d.changes.isEmpty = false → d.old_state.isSome = true) :
    (∀ s : State, (Document.new s).changes.isEmpty = false →
        (Document.new s).old_state.isSome = true) ∧
    (∀ (t : Transaction) (r : ApplyResult), d.apply t = some r →
        r.doc.changes.isEmpty = false → r.doc.old_state.isSome = true) ∧
    (∀ r : ApplyResult, d.undo = some r →
        r.doc.changes.isEmpty = false → r.doc.old_state.isSome = true) ∧
    (∀ r : ApplyResult, d.redo = some r →
        r.doc.changes.isEmpty = false → r.doc.old_state.isSome = true) ∧
    (∀ d2 : Document, d.append_changes_to_history = some d2 →
        d2.changes.isEmpty = false → d2.old_state.isSome = true) := by
  refine ⟨?_, ?_, ?_, ?_, ?_⟩
  · intro s h
    simp [Document.new, ChangeSet.new, ChangeSet.isEmpty] at h
  · intro t r h hne
    obtain ⟨-, -, hc, ho, -⟩ := apply_spec h
    rw [ho]
    cases ht : t.changes.isEmpty
    · cases hdc : d.changes.isEmpty
      · simp only [hdc, Bool.false_and, Bool.false_eq_true, if_false]
        exact hW hdc
      · simp [hdc]
    · rw [ht] at hc
      simp at hc
      have hdc : d.changes.isEmpty = false := by rw [← hc]; exact hne
      simp only [Bool.not_true, Bool.and_false, Bool.false_eq_true, if_false]
      exact hW hdc
  · intro r h hne
    rcases undo_changes h with heq | heq
    · rw [heq]
      rw [heq] at hne
      exact hW hne
    · rw [heq] at hne
      cases hne
  · intro r h hne
    rcases redo_changes h with heq | heq
    · rw [heq]
      rw [heq] at hne
      exact hW hne
    · rw [heq] at hne
      cases hne
  · intro d2 h hne
    rcases append_changes h with heq | heq
    · rw [heq]
      rw [heq] at hne
      exact hW hne
    · rw [heq] at hne
      cases hne

/-- Witness for the amended C5 on a concrete fresh document and insert. -/
theorem checkpoint_weak_invariant_witness :
    (sampleDoc.changes.isEmpty = false → sampleDoc.old_state.isSome = true) ∧
    (∃ r : ApplyResult, sampleDoc.apply sampleInsert = some r ∧
        (r.doc.changes.isEmpty = false → r.doc.old_state.isSome = true)) := by
  have hW : sampleDoc.changes.isEmpty = false → sampleDoc.old_state.isSome = true := by
    decide
  have ha := apply_eq sampleDoc sampleInsert (by decide) (by decide)
  exact ⟨hW, ⟨_, ha, (checkpoint_weak_invariant sampleDoc hW).2.1 sampleInsert _ ha⟩⟩

/-- C4 counterexample: a failing edit makes `apply` return false with the
text state unchanged, but the pending change-set accumulator IS still
modified (the failing transaction is composed into it), contradicting the
claimed "no side effects are triggered". -/
theorem apply_failure_side_effects_cex :
    ∃ r : ApplyResult, failDoc.apply failDel = some r ∧ r.success = false ∧
      ¬ r.doc.changes = failDoc.changes := by
  have h := apply_eq failDoc failDel (by decide) (by decide)
  refine ⟨_, h, by decide, ?_⟩
  simp [failDoc, failDel, Document.new, ChangeSet.compose, composeOps, ChangeSet.new,
    ChangeSet.isEmpty]

/-- C4 amended: when the edit application of a non-empty transaction fails,
`apply` returns false and the text state is unchanged — but the side effects
still run: the change-set is still composed into the pending accumulator and
the didChange notification is still emitted when a binding is present (the
parse-tree update is likewise still invoked).  Conversely, `apply` returns
false only in this edit-application-failure case. -/
theorem apply_failure_behavior :
    (∀ (d : Document) (t : Transaction),
        treeOk d.tree = true → (d.language_server = true → d.path.isSome) →
        t.changes.isEmpty = false → t.changes.apply d.state.doc = none →
        ∃ r : ApplyResult, d.apply t = some r ∧ r.success = false ∧
          r.doc.state = d.state ∧
          r.doc.changes = d.changes.compose t.changes ∧
          r.notes = (if d.language_server then
              [{ uri := d.path.getD [], version := d.version, oldDoc := d.state.doc
                 newDoc := d.state.doc, changes := t.changes }]
            else [])) ∧
    (∀ (d : Document) (t : Transaction) (r : ApplyResult),
        d.apply t = some r → r.success = false →
        t.changes.isEmpty = false ∧ t.changes.apply d.state.doc = none) := by
  constructor
  · intro d t hok hlsp hne hfail
    have hT := Transaction.apply_of_changes_none hne hfail
    have h := apply_eq d t hok hlsp
    rw [hT] at h
    exact ⟨_, h, rfl, rfl, by simp [hne], by simp [hne]⟩
  · intro d t r h hfalse
    have hs : (t.apply d.state).1 = false := by
      rw [← (apply_spec h).1, hfalse]
    exact (Transaction.apply_false_iff t d.state).mp hs

/-- Witness for the amended C4 on the concrete failing delete. -/
theorem apply_failure_behavior_witness :
    failDel.changes.isEmpty = false ∧
    failDel.changes.apply failDoc.state.doc = none ∧
    (∃ r : ApplyResult, failDoc.apply failDel = some r ∧ r.success = false ∧
        r.doc.state = failDoc.state ∧
        r.doc.changes = failDoc.changes.compose failDel.changes) := by
  obtain ⟨r, h1, h2, h3, h4, h5⟩ :=
    apply_failure_behavior.1 failDoc failDel (by decide) (by decide) (by decide) (by decide)
  exact ⟨by decide, by decide, r, h1, h2, h3, h4⟩

/-- A successful apply of a non-empty transaction means the edit itself
applied. -/
theorem Transaction.apply_true_nonempty {t : Transaction} {s : State}
    (hne : t.changes.isEmpty = false) (h : (t.apply s).1 = true) :
    ∃ u, t.changes.apply s.doc = some u := by
  unfold Transaction.apply at h
  rw [hne] at h
  simp only [Bool.false_eq_true, if_false] at h
  cases hc : t.changes.apply s.doc with
  | none => rw [hc] at h; simp at h
  | some u => exact ⟨u, rfl⟩

/-- An empty transaction leaves the text untouched. -/
theorem Transaction.apply_empty_doc {t : Transaction} {s : State}
    (h : t.changes.isEmpty = true) : (t.apply s).2.doc = s.doc := by
  unfold Transaction.apply
  rw [h]
  rfl

/-- C1: two transactions applied in sequence through `Document::apply` with
no intervening commit: the pending change-set accumulated by composition,
applied to the text of the checkpoint taken before the first transaction,
reproduces exactly the text reached, and the reached state (text and
selection) is the one obtained by applying the transactions directly. -/
theorem composition_law {d0 : Document} {t1 t2 : Transaction} {u1 : List Char}
    (hch : d0.changes = ChangeSet.new d0.state.doc)
    (hok : treeOk d0.tree = true)
    (hlsp : d0.language_server = true → d0.path.isSome)
    (hne1 : t1.changes.isEmpty = false)
    (ht1 : t1.changes.apply d0.state.doc = some u1)
    (ht2 : (t2.apply (t1.apply d0.state).2).1 = true) :
    ∃ r1 r2 : ApplyResult,
      d0.apply t1 = some r1 ∧ r1.success = true ∧
      r1.doc.apply t2 = some r2 ∧ r2.success = true ∧
      r2.doc.state = (t2.apply (t1.apply d0.state).2).2 ∧
      r2.doc.old_state = some d0.state ∧
      r2.doc.changes.apply d0.state.doc = some r2.doc.state.doc := by
  have hT1 := Transaction.apply_of_changes_some hne1 ht1
  obtain ⟨r1, h1⟩ : ∃ r1, d0.apply t1 = some r1 := ⟨_, apply_eq d0 t1 hok hlsp⟩
  obtain ⟨hs1, hst1, hc1, ho1, hp1, -, -, -, -, hls1⟩ := apply_spec h1
  have hchEmpty : d0.changes.isEmpty = true := by rw [hch]; rfl
  have hs1' : r1.success = true := by rw [hs1, hT1]
  have hc1' : r1.doc.changes = d0.changes.compose t1.changes := by
    rw [hc1, hne1]
    rfl
  have ho1' : r1.doc.old_state = some d0.state := by
    rw [ho1, hchEmpty, hne1]
    rfl
  have hcne1 : r1.doc.changes.isEmpty = false := by
    rw [hc1', hch, ChangeSet.new_compose]
    exact hne1
  have htok1 : treeOk r1.doc.tree = true := apply_treeOk h1 hok
  have hlsp1 : r1.doc.language_server = true → r1.doc.path.isSome := by
    rw [hls1, hp1]
    exact hlsp
  obtain ⟨r2, h2⟩ : ∃ r2, r1.doc.apply t2 = some r2 := ⟨_, apply_eq r1.doc t2 htok1 hlsp1⟩
  obtain ⟨hs2, hst2, hc2, ho2, -, -, -, -, -, -⟩ := apply_spec h2
  have hs2' : r2.success = true := by
    rw [hs2, hst1]
    exact ht2
  have hst2' : r2.doc.state = (t2.apply (t1.apply d0.state).2).2 := by rw [hst2, hst1]
  have ho2' : r2.doc.old_state = some d0.state := by
    rw [ho2, hcne1]
    simp only [Bool.false_and, Bool.false_eq_true, if_false]
    exact ho1'
  have hacc1 : r1.doc.changes.apply d0.state.doc = some u1 := by
    rw [hc1']
    exact ChangeSet.compose_apply (by rw [hch]; exact ChangeSet.new_apply _) ht1
  have hdoc1 : (t1.apply d0.state).2.doc = u1 := by rw [hT1]
  refine ⟨r1, r2, h1, hs1', h2, hs2', hst2', ho2', ?_⟩
  cases ht2e : t2.changes.isEmpty
  · -- non-empty second transaction: compose correctness carries through
    rw [hst1] at hs2
    have hs2true : (t2.apply (t1.apply d0.state).2).1 = true := ht2
    obtain ⟨u2, ht2'⟩ := Transaction.apply_true_nonempty ht2e hs2true
    have ht2'' : t2.changes.apply u1 = some u2 := by rw [← hdoc1]; exact ht2'
    have hT2 := Transaction.apply_of_changes_some ht2e ht2'
    rw [hc2, ht2e, hst2', hT2]
    simp only [Bool.false_eq_true, if_false]
    exact ChangeSet.compose_apply hacc1 ht2''
  · -- empty second transaction: the accumulator and the text are unchanged
    rw [hc2, ht2e, hst2']
    simp only [if_true]
    rw [Transaction.apply_empty_doc ht2e, hdoc1]
    exact hacc1

/-- Witness for C1: the concrete insert/delete pair on `"hello"`. -/
theorem composition_law_witness :
    sampleDoc.changes = ChangeSet.new sampleDoc.state.doc ∧
    sampleInsert.changes.isEmpty = false ∧
    sampleInsert.changes.apply sampleDoc.state.doc = some "hello world".toList ∧
    (sampleDelete.apply (sampleInsert.apply sampleDoc.state).2).1 = true ∧
    (∃ r1 r2 : ApplyResult,
      sampleDoc.apply sampleInsert = some r1 ∧ r1.success = true ∧
      r1.doc.apply sampleDelete = some r2 ∧ r2.success = true ∧
      r2.doc.state = (sampleDelete.apply (sampleInsert.apply sampleDoc.state).2).2 ∧
      r2.doc.old_state = some sampleDoc.state ∧
      r2.doc.changes.apply sampleDoc.state.doc = some r2.doc.state.doc) :=
  ⟨by decide, by decide, by decide, by decide,
    @composition_law sampleDoc sampleInsert sampleDelete "hello world".toList
      (by decide) (by decide) (by decide) (by decide) (by decide) (by decide)⟩

/-- Undoing right after a commit hands back the revert of the committed
transaction and steps the cursor back. -/
theorem History.undo_commit (h : History) (tr : Transaction) (os : State)
    (hc : h.cursor ≤ h.revisions.length) :
    (h.commit_revision tr os).undo =
      some (tr.invert os,
        { revisions := h.revisions.take h.cursor ++
            [{ revert := tr.invert os, transaction := tr }]
          cursor := h.cursor }) := by
  unfold History.commit_revision History.undo
  simp only [Nat.succ_ne_zero, if_false, Nat.add_sub_cancel]
  rw [List.get?_append_right (by simp [List.length_take]; try omega)]
  simp [List.length_take, Nat.min_eq_left hc]

/-- Redoing when the cursor sits right before the last revision hands back
its forward transaction and steps the cursor forward. -/
theorem History.redo_committed (l : List Revision) (rev : Revision) (c : Nat)
    (hl : l.length = c) :
    History.redo { revisions := l ++ [rev], cursor := c } =
      some (rev.transaction, { revisions := l ++ [rev], cursor := c + 1 }) := by
  unfold History.redo
  simp only [List.length_append]
  rw [List.get?_append_right (by omega)]
  simp [hl]

/-- C2: after applying a transaction and committing it, `redo` immediately
after `undo` (no intervening edit) restores the post-edit state bit for bit:
text and selection equal those before the undo. -/
theorem undo_redo_roundtrip {d0 : Document} {t : Transaction} {u : List Char}
    (hch : d0.changes = ChangeSet.new d0.state.doc)
    (hok : treeOk d0.tree = true)
    (hlsp : d0.language_server = true → d0.path.isSome)
    (hcur : d0.history.cursor ≤ d0.history.revisions.length)
    (hne : t.changes.isEmpty = false)
    (ht : t.changes.apply d0.state.doc = some u) :
    ∃ (r1 : ApplyResult) (d1 : Document) (r2 r3 : ApplyResult),
      d0.apply t = some r1 ∧ r1.success = true ∧
      r1.doc.append_changes_to_history = some d1 ∧
      d1.undo = some r2 ∧ r2.success = true ∧
      r2.doc.redo = some r3 ∧ r3.success = true ∧
      r3.doc.state.doc = d1.state.doc ∧
      r3.doc.state.selection = d1.state.selection := by
  have hT := Transaction.apply_of_changes_some hne ht
  obtain ⟨r1, h1⟩ : ∃ r1, d0.apply t = some r1 := ⟨_, apply_eq d0 t hok hlsp⟩
  obtain ⟨hs1, hst1, hc1, ho1, hp1, -, -, hhist1, -, hls1⟩ := apply_spec h1
  have hchEmpty : d0.changes.isEmpty = true := by rw [hch]; rfl
  have hs1' : r1.success = true := by rw [hs1, hT]
  have hstdoc : r1.doc.state.doc = u := by rw [hst1, hT]
  have hlen : d0.state.doc.length = t.changes.len := ChangeSet.apply_some_len ht
  have hacc : r1.doc.changes = t.changes := by
    rw [hc1, hne]
    simp only [Bool.false_eq_true, if_false]
    rw [hch, ChangeSet.new_compose, hlen]
  have ho1' : r1.doc.old_state = some d0.state := by
    rw [ho1, hchEmpty, hne]
    rfl
  have hne1 : r1.doc.changes.isEmpty = false := by rw [hacc]; exact hne
  have htok1 : treeOk r1.doc.tree = true := apply_treeOk h1 hok
  have hlsp1 : r1.doc.language_server = true → r1.doc.path.isSome := by
    rw [hls1, hp1]
    exact hlsp
  obtain ⟨sel1, hsel1⟩ : ∃ s, r1.doc.state.selection = s := ⟨_, rfl⟩
  have heta : r1.doc.state = { doc := u, selection := sel1 } := by
    rw [← hstdoc, ← hsel1]
  -- the commit
  have h3 := append_eq r1.doc d0.state hne1 ho1'
  have hTc : (Transaction.fromChangeSet r1.doc.changes).with_selection
      r1.doc.state.selection = { changes := t.changes, selection := some sel1 } := by
    rw [Transaction.fromChangeSet, Transaction.with_selection, hacc, hsel1]
  rw [hTc, hhist1] at h3
  obtain ⟨d1, h3', hd1⟩ : ∃ d1, r1.doc.append_changes_to_history = some d1 ∧
      d1 = { r1.doc with
        changes := ChangeSet.new r1.doc.state.doc
        version := wrap32 (r1.doc.version + 1)
        old_state := none
        history := d0.history.commit_revision
          { changes := t.changes, selection := some sel1 } d0.state } := ⟨_, h3, rfl⟩
  have hd1state : d1.state = { doc := u, selection := sel1 } := by
    rw [hd1]
    exact heta
  have hd1hist : d1.history = d0.history.commit_revision
      { changes := t.changes, selection := some sel1 } d0.state := by rw [hd1]
  have hd1tok : treeOk d1.tree = true := by rw [hd1]; exact htok1
  have hd1lsp : d1.language_server = true → d1.path.isSome := by rw [hd1]; exact hlsp1
  -- undo of the freshly committed revision
  have hu := History.undo_commit d0.history
    { changes := t.changes, selection := some sel1 } d0.state hcur
  have hrevinv : Transaction.invert
      { changes := t.changes, selection := some sel1 } d0.state =
      { changes := t.changes.invert d0.state.doc
        selection := some d0.state.selection } := rfl
  rw [hrevinv] at hu
  have hu2 : d1.history.undo = some
      ({ changes := t.changes.invert d0.state.doc, selection := some d0.state.selection },
        { revisions := d0.history.revisions.take d0.history.cursor ++
            [{ revert := { changes := t.changes.invert d0.state.doc
                           selection := some d0.state.selection }
               transaction := { changes := t.changes, selection := some sel1 } }]
          cursor := d0.history.cursor }) := by
    rw [hd1hist]
    exact hu
  have hinv : (t.changes.invert d0.state.doc).apply u = some d0.state.doc :=
    ChangeSet.invert_apply ht
  have hrevne : (t.changes.invert d0.state.doc).isEmpty = false := by
    rw [ChangeSet.invert_isEmpty]
    exact hne
  have hTrev : Transaction.apply
      { changes := t.changes.invert d0.state.doc, selection := some d0.state.selection }
      { doc := u, selection := sel1 } = (true, d0.state) := by
    rw [@Transaction.apply_of_changes_some
      { changes := t.changes.invert d0.state.doc, selection := some d0.state.selection }
      { doc := u, selection := sel1 } d0.state.doc hrevne hinv]
    rfl
  have hundo := undo_eq d1
    { changes := t.changes.invert d0.state.doc, selection := some d0.state.selection }
    _ hu2 hd1tok hd1lsp
  rw [hd1state, hTrev] at hundo
  dsimp only at hundo
  obtain ⟨r2, hundo', hr2⟩ : ∃ r2, d1.undo = some r2 ∧ r2 = _ := ⟨_, hundo, rfl⟩
  have hr2succ : r2.success = true := by rw [hr2]
  have hr2state : r2.doc.state = d0.state := by rw [hr2]
  have hr2hist : r2.doc.history =
      { revisions := d0.history.revisions.take d0.history.cursor ++
          [{ revert := { changes := t.changes.invert d0.state.doc
                         selection := some d0.state.selection }
             transaction := { changes := t.changes, selection := some sel1 } }]
        cursor := d0.history.cursor } := by rw [hr2]
  have htokr2 : treeOk r2.doc.tree = true := by
    rw [hr2]
    dsimp only
    split
    · exact hd1tok
    · exact treeOk_map _ _
  have hr2lsp : r2.doc.language_server = true → r2.doc.path.isSome := by
    rw [hr2]
    exact hd1lsp
  -- redo of the undone revision
  have hre := History.redo_committed
    (d0.history.revisions.take d0.history.cursor)
    { revert := { changes := t.changes.invert d0.state.doc
                  selection := some d0.state.selection }
      transaction := { changes := t.changes, selection := some sel1 } }
    d0.history.cursor (by simp [List.length_take, Nat.min_eq_left hcur])
  have hre2 : r2.doc.history.redo = some
      ({ changes := t.changes, selection := some sel1 },
        { revisions := d0.history.revisions.take d0.history.cursor ++
            [{ revert := { changes := t.changes.invert d0.state.doc
                           selection := some d0.state.selection }
               transaction := { changes := t.changes, selection := some sel1 } }]
          cursor := d0.history.cursor + 1 }) := by
    rw [hr2hist]
    exact hre
  have hTfwd : Transaction.apply
      { changes := t.changes, selection := some sel1 } d0.state =
      (true, { doc := u, selection := sel1 }) := by
    rw [@Transaction.apply_of_changes_some
      { changes := t.changes, selection := some sel1 } d0.state u hne ht]
    rfl
  have hredo := redo_eq r2.doc
    { changes := t.changes, selection := some sel1 } _ hre2 htokr2 hr2lsp
  rw [hr2state, hTfwd] at hredo
  dsimp only at hredo
  obtain ⟨r3, hredo', hr3⟩ : ∃ r3, r2.doc.redo = some r3 ∧ r3 = _ := ⟨_, hredo, rfl⟩
  have hr3succ : r3.success = true := by rw [hr3]
  have hr3doc : r3.doc.state.doc = d1.state.doc := by rw [hr3, hd1state]
  have hr3sel : r3.doc.state.selection = d1.state.selection := by rw [hr3, hd1state]
  exact ⟨r1, d1, r2, r3, h1, hs1', h3', hundo', hr2succ, hredo', hr3succ, hr3doc, hr3sel⟩

/-- Witness for C2: the concrete insert on `"hello"`, committed, undone,
and redone. -/
theorem undo_redo_roundtrip_witness :
    sampleDoc.changes = ChangeSet.new sampleDoc.state.doc ∧
    sampleInsert.changes.isEmpty = false ∧
    sampleInsert.changes.apply sampleDoc.state.doc = some "hello world".toList ∧
    (∃ (r1 : ApplyResult) (d1 : Document) (r2 r3 : ApplyResult),
      sampleDoc.apply sampleInsert = some r1 ∧ r1.success = true ∧
      r1.doc.append_changes_to_history = some d1 ∧
      d1.undo = some r2 ∧ r2.success = true ∧
      r2.doc.redo = some r3 ∧ r3.success = true ∧
      r3.doc.state.doc = d1.state.doc ∧
      r3.doc.state.selection = d1.state.selection) :=
  ⟨by decide, by decide, by decide,
    @undo_redo_roundtrip sampleDoc sampleInsert "hello world".toList
      (by decide) (by decide) (by decide) (by decide) (by decide) (by decide)⟩

end Helix
